import Mathlib

/-!
# Rummikub helper: meld validator, arrangement solver and move enumerator

A shallow embedding of `src/rummikub.h` and `src/rummikub.cpp`, followed by
theorems about it.

Conventions of the embedding.

* `std::vector<T>` is `List T`; `push_back` appends at the end, `back` /
  `pop_back` read / drop the last element, `erase(begin() + k)` is
  `List.eraseIdx`, `insert(begin() + k, x)` is `List.insertIdx`.
* `int` is `Int`.  The only `int` arithmetic of the program is a handful of
  subtractions on tile numbers and counters; signed overflow (undefined
  behaviour in C++) is outside the model.
* The solver mutates its arguments in place.  The embedding passes the four
  mutable objects (`remaining_tiles`, `groups`, `memo`, `result`) around as an
  explicit `State`, and every mutation of the source is a state update here.
* The solver recurses; the embedding recurses on a fuel parameter and reports
  `Fault.fuel` when it runs out.  An access outside a vector reports
  `Fault.bounds`.
-/

namespace Rummikub

/-! ## Data model (`rummikub.h`) -/

/-- The constant `MIN_GROUP_SIZE` of the header. -/
def MIN_GROUP_SIZE : Int := 3

/-- The enumeration `Color`; the enumerators are numbered 0 to 4 in this order. -/
inductive Color where
  | RED
  | BLUE
  | BLACK
  | YELLOW
  | JOKER
  deriving DecidableEq

/-- The value `static_cast<int>(color)`. -/
def Color.toInt : Color → Int
  | Color.RED => 0
  | Color.BLUE => 1
  | Color.BLACK => 2
  | Color.YELLOW => 3
  | Color.JOKER => 4

/-- The struct `Tile`. -/
structure Tile where
  color : Color
  number : Int
  deriving DecidableEq

/-! ## `state_hash` -/

/-- The decimal digit with value `d`. -/
def digit_char (d : Nat) : Char := Char.ofNat (48 + d)

/-- Decimal digits of a natural number, most significant first; the first
argument bounds the number of digits produced. -/
def nat_digits : Nat → Nat → List Char
  | 0, _ => []
  | fuel + 1, n =>
    if n < 10 then [digit_char n]
    else nat_digits fuel (n / 10) ++ [digit_char (n % 10)]

/-- The function `std::to_string(int)`: decimal digits, with a leading minus
sign for a negative number. -/
def to_string : Int → String
  | Int.ofNat m => String.mk (nat_digits (m + 1) m)
  | Int.negSucc m => String.mk ('-' :: nat_digits (m + 2) (m + 1))

/-- The text appended to the hash for one tile: color, comma, number, semicolon. -/
def tile_hash (tile : Tile) : String :=
  to_string tile.color.toInt ++ "," ++ to_string tile.number ++ ";"

/-- The loop of `state_hash` over a vector of tiles, appending to `hash`. -/
def tiles_hash : List Tile → String → String
  | [], hash => hash
  | tile :: rest, hash => tiles_hash rest (hash ++ tile_hash tile)

/-- The loop of `state_hash` over the groups, appending to `hash`. -/
def groups_hash : List (List Tile) → String → String
  | [], hash => hash
  | group :: rest, hash => groups_hash rest (tiles_hash group hash ++ "/")

/-- The function `state_hash`. -/
def state_hash (remaining_tiles : List Tile) (groups : List (List Tile)) : String :=
  groups_hash groups (tiles_hash remaining_tiles "" ++ "|")

/-! ## Meld validator -/

/-- The first loop of `is_set` and of `is_run`: starting from
`(group_size, joker_count)`, every joker decrements the first counter and
increments the second. -/
def count_jokers : List Tile → Int × Int → Int × Int
  | [], acc => acc
  | tile :: rest, (group_size, joker_count) =>
    if tile.color = Color.JOKER then count_jokers rest (group_size - 1, joker_count + 1)
    else count_jokers rest (group_size, joker_count)

/-- The second loop of `is_set`, carrying `unique_colors` (a `std::set`, here a
duplicate-free list) and `first_number`; `none` is the early `return false`. -/
def is_set_loop : List Tile → List Color → Int → Option (List Color)
  | [], unique_colors, _ => some unique_colors
  | tile :: rest, unique_colors, first_number =>
    if tile.color ≠ Color.JOKER then
      let first_number := if first_number = -1 then tile.number else first_number
      let unique_colors := unique_colors.insert tile.color
      if tile.number ≠ first_number then none
      else is_set_loop rest unique_colors first_number
    else is_set_loop rest unique_colors first_number

/-- The function `is_set`. -/
def is_set (group : List Tile) : Bool :=
  match count_jokers group ((group.length : Int), 0) with
  | (group_size, joker_count) =>
    if group_size < MIN_GROUP_SIZE - joker_count then false
    else
      match is_set_loop group [] (-1) with
      | none => false
      | some unique_colors => decide ((unique_colors.length : Int) = group_size)

/-- The second loop of `is_run`, carrying `first_color` and `numbers`; `none`
is the early `return false`. -/
def is_run_loop : List Tile → Color → List Int → Option (List Int)
  | [], _, numbers => some numbers
  | tile :: rest, first_color, numbers =>
    if tile.color ≠ Color.JOKER then
      let first_color := if first_color = Color.JOKER then tile.color else first_color
      if tile.color ≠ first_color then none
      else if tile.number ∈ numbers then none
      else is_run_loop rest first_color (numbers ++ [tile.number])
    else is_run_loop rest first_color numbers

/-- The call `std::sort(numbers.begin(), numbers.end())`: the ascending
rearrangement of the vector. -/
def std_sort (numbers : List Int) : List Int :=
  List.insertionSort (fun a b => a ≤ b) numbers

/-- The last loop of `is_run` over the sorted numbers: every positive gap is
paid from `allowed_gap`; `false` is the early `return false`. -/
def is_run_gaps : List Int → Int → Bool
  | a :: b :: rest, allowed_gap =>
    let gap := b - a - 1
    if gap > 0 then
      let allowed_gap := allowed_gap - gap
      if allowed_gap < 0 then false
      else is_run_gaps (b :: rest) allowed_gap
    else is_run_gaps (b :: rest) allowed_gap
  | _, _ => true

/-- The function `is_run`.  The read `group[0]` happens after the size guard,
which has already returned for the empty group. -/
def is_run (group : List Tile) : Bool :=
  match count_jokers group ((group.length : Int), 0) with
  | (group_size, joker_count) =>
    if group_size < MIN_GROUP_SIZE - joker_count then false
    else
      match group with
      | [] => false
      | tile0 :: _ =>
        match is_run_loop group tile0.color [] with
        | none => false
        | some numbers => is_run_gaps (std_sort numbers) joker_count

/-- The function `can_form_group`. -/
def can_form_group (tile : Tile) (group : List Tile) : Bool :=
  let new_group := group ++ [tile]
  is_set new_group || is_run new_group

/-! ## Arrangement solver -/

/-- The ways a run of the embedding can stop without a result: the recursion
budget is used up, or a vector is accessed outside its bounds. -/
inductive Fault where
  | fuel
  | bounds
  deriving DecidableEq

/-- The four objects `valid_rummikub_arrangement_helper` receives by reference.
The memo is a `std::map` from hash strings to arrangements, kept as an
association list with at most one entry per key. -/
structure State where
  remaining_tiles : List Tile
  groups : List (List Tile)
  memo : List (String × List (List Tile))
  result : List (List Tile)
  deriving DecidableEq

/-- The lookup `memo.find(key)`: the stored arrangement, or `none` for `memo.end()`. -/
def memo_find (memo : List (String × List (List Tile))) (key : String) :
    Option (List (List Tile)) :=
  match memo.find? (fun entry => entry.1 = key) with
  | some entry => some entry.2
  | none => none

/-- The assignment `memo[key] = value`. -/
def memo_assign (memo : List (String × List (List Tile))) (key : String)
    (value : List (List Tile)) : List (String × List (List Tile)) :=
  (key, value) :: memo.filter (fun entry => entry.1 ≠ key)

/-- The loop `for (auto& group : groups)` of the helper, from position `k`
with `n` groups still to visit; `recurse` is the recursive call.  The flag of
the answer tells whether the helper returns from inside the loop. -/
def extend_loop (recurse : State → Except Fault State) (current_tile : Tile) :
    Nat → Nat → State → Except Fault (State × Bool)
  | 0, _, s => Except.ok (s, false)
  | n + 1, k, s =>
    match s.groups[k]? with
    | none => Except.error Fault.bounds
    | some group =>
      if can_form_group current_tile group then
        match recurse { s with groups := s.groups.set k (group ++ [current_tile]) } with
        | Except.error e => Except.error e
        | Except.ok s1 =>
          if !s1.result.isEmpty then Except.ok (s1, true)
          else
            match s1.groups[k]? with
            | none => Except.error Fault.bounds
            | some group1 =>
              extend_loop recurse current_tile n (k + 1)
                { s1 with groups := s1.groups.set k group1.dropLast }
      else extend_loop recurse current_tile n (k + 1) s

/-- The loop `for (size_t j = i + 1; j < remaining_tiles.size(); ++j)` of the
helper, from position `j`.  The bound is read again before every round, as in
the source; the first argument is a budget of rounds. -/
def pair_loop (recurse : State → Except Fault State) (current_tile : Tile) (i : Nat) :
    Nat → Nat → State → Except Fault (State × Bool)
  | 0, j, s => if j < s.remaining_tiles.length then Except.error Fault.fuel else Except.ok (s, false)
  | n + 1, j, s =>
    if j < s.remaining_tiles.length then
      match s.remaining_tiles[i]?, s.remaining_tiles[j]? with
      | some tile_i, some tile_j =>
        let new_group := [current_tile, tile_i, tile_j]
        if is_set new_group || is_run new_group then
          let s0 : State :=
            { s with
              groups := s.groups ++ [new_group]
              remaining_tiles := (s.remaining_tiles.eraseIdx j).eraseIdx i }
          match recurse s0 with
          | Except.error e => Except.error e
          | Except.ok s1 =>
            if !s1.result.isEmpty then Except.ok (s1, true)
            else if s1.remaining_tiles.length < i then Except.error Fault.bounds
            else if (s1.remaining_tiles.insertIdx i tile_i).length < j then
              Except.error Fault.bounds
            else
              pair_loop recurse current_tile i n (j + 1)
                { s1 with
                  remaining_tiles :=
                    (s1.remaining_tiles.insertIdx i tile_i).insertIdx j tile_j
                  groups := s1.groups.dropLast }
        else pair_loop recurse current_tile i n (j + 1) s
      | _, _ => Except.error Fault.bounds
    else Except.ok (s, false)

/-- The loop `for (size_t i = start_idx; i < end_idx; ++i)` of the helper, from
position `i` with `n = end_idx - i` rounds to go. -/
def new_group_loop (recurse : State → Except Fault State) (current_tile : Tile) :
    Nat → Nat → State → Except Fault (State × Bool)
  | 0, _, s => Except.ok (s, false)
  | n + 1, i, s =>
    match pair_loop recurse current_tile i (s.remaining_tiles.length - (i + 1)) (i + 1) s with
    | Except.error e => Except.error e
    | Except.ok (s1, true) => Except.ok (s1, true)
    | Except.ok (s1, false) => new_group_loop recurse current_tile n (i + 1) s1

/-- The function `valid_rummikub_arrangement_helper`; the first argument is the
recursion budget. -/
def valid_rummikub_arrangement_helper :
    Nat → Nat → Nat → State → Except Fault State
  | 0, _, _, _ => Except.error Fault.fuel
  | fuel + 1, start_idx, end_idx, s =>
    let curr_state := state_hash s.remaining_tiles s.groups
    match memo_find s.memo curr_state with
    | some stored => Except.ok { s with result := stored }
    | none =>
      match s.remaining_tiles.getLast? with
      | none => Except.ok { s with result := s.groups }
      | some current_tile =>
        let s0 : State := { s with remaining_tiles := s.remaining_tiles.dropLast }
        match extend_loop (valid_rummikub_arrangement_helper fuel start_idx end_idx)
            current_tile s0.groups.length 0 s0 with
        | Except.error e => Except.error e
        | Except.ok (s1, true) => Except.ok s1
        | Except.ok (s1, false) =>
          match new_group_loop (valid_rummikub_arrangement_helper fuel start_idx end_idx)
              current_tile (end_idx - start_idx) start_idx s1 with
          | Except.error e => Except.error e
          | Except.ok (s2, true) => Except.ok s2
          | Except.ok (s2, false) =>
            Except.ok
              { s2 with
                remaining_tiles := s2.remaining_tiles ++ [current_tile]
                memo := memo_assign s2.memo curr_state [] }

/-- The state in which `valid_rummikub_arrangement` starts a worker: all the
tiles remaining, no groups, an empty memo, an empty result. -/
def initial_state (tiles : List Tile) : State :=
  { remaining_tiles := tiles, groups := [], memo := [], result := [] }

/-- The call of the helper that is the one-worker run of
`valid_rummikub_arrangement`: pair range `0 .. tiles.size()`.  The budget
`tiles.size() + 1` is never used up (`solve_run_ok`). -/
def solve_run (tiles : List Tile) : Except Fault State :=
  valid_rummikub_arrangement_helper (tiles.length + 1) 0 tiles.length (initial_state tiles)

/-- The function `valid_rummikub_arrangement` with one worker
(`num_threads = 1`): the worker gets the pair range `0 .. tiles.size()`, and its
result is returned when it is non-empty, the empty arrangement otherwise.
With more workers the source runs the helper concurrently on one shared
`remaining_tiles` vector, which has no sequential meaning. -/
def valid_rummikub_arrangement (tiles : List Tile) : List (List Tile) :=
  match solve_run tiles with
  | Except.ok s => if !s.result.isEmpty then s.result else []
  | Except.error _ => []

/-! ## Move enumerator -/

/-- The `int` expression `1 << k` converted to `size_t`, as in
`index_ & (1 << i)` and in `SubsetsGenerator::end`: the low 32 bits of the
shifted one, sign-extended to 64 bits.  (For `k` of 31 or more the C++ shift
overflows; the model wraps.) -/
def shl_one (k : Nat) : Nat :=
  let low := (1 <<< k) % 2 ^ 32
  if low < 2 ^ 31 then low else low + (2 ^ 64 - 2 ^ 32)

/-- The loop of `SubsetsIterator::operator*` from position `i` on: `rest` is
what is left of `tiles_` from position `i`. -/
def subset_loop (index : Nat) : List Tile → Nat → List Tile → List Tile
  | [], _, subset => subset
  | tile :: rest, i, subset =>
    if index &&& shl_one i ≠ 0 then subset_loop index rest (i + 1) (subset ++ [tile])
    else subset_loop index rest (i + 1) subset

/-- The dereference `SubsetsIterator::operator*` of the iterator at `index`. -/
def SubsetsIterator.deref (tiles : List Tile) (index : Nat) : List Tile :=
  subset_loop index tiles 0 []

/-- The index of `SubsetsGenerator::end()`. -/
def SubsetsGenerator.end_index (tiles : List Tile) : Nat := shl_one tiles.length

/-- The loop of `getMoveList` over the generator: the iterator stands at
`index` and `n` increments separate it from `end()`. -/
def getMoveList_loop (hand board : List Tile) :
    Nat → Nat → List (List Tile) → List (List Tile)
  | 0, _, movelist => movelist
  | n + 1, index, movelist =>
    let subset := SubsetsIterator.deref hand index
    let tiles := board ++ subset
    let arrangement := valid_rummikub_arrangement tiles
    if !arrangement.isEmpty then getMoveList_loop hand board n (index + 1) (movelist ++ [subset])
    else getMoveList_loop hand board n (index + 1) movelist

/-- The function `getMoveList`.  The iterator starts at index 0 and is
incremented until it equals `end()`. -/
def getMoveList (hand board : List Tile) : List (List Tile) :=
  getMoveList_loop hand board (SubsetsGenerator.end_index hand) 0 []

/-! ## Inputs used in the statements -/

deriving instance DecidableEq for Except

/-- The board of `main`: the black run 6 to 9. -/
def main_board : List Tile :=
  [⟨Color.BLACK, 6⟩, ⟨Color.BLACK, 7⟩, ⟨Color.BLACK, 8⟩, ⟨Color.BLACK, 9⟩]

/-- The hand of `main`. -/
def main_hand : List Tile :=
  [⟨Color.BLACK, 4⟩, ⟨Color.BLACK, 10⟩, ⟨Color.BLUE, 1⟩, ⟨Color.BLUE, 3⟩, ⟨Color.YELLOW, 13⟩]

/-- The red tiles 1 to 5 in ascending order. -/
def red_ascending : List Tile :=
  [⟨Color.RED, 1⟩, ⟨Color.RED, 2⟩, ⟨Color.RED, 3⟩, ⟨Color.RED, 4⟩, ⟨Color.RED, 5⟩]

/-- The red tiles 1 to 5 in the order 4, 5, 2, 3, 1. -/
def red_shuffled : List Tile :=
  [⟨Color.RED, 4⟩, ⟨Color.RED, 5⟩, ⟨Color.RED, 2⟩, ⟨Color.RED, 3⟩, ⟨Color.RED, 1⟩]

/-- The group the solver builds from `red_ascending`. -/
def red_found : List Tile :=
  [⟨Color.RED, 5⟩, ⟨Color.RED, 3⟩, ⟨Color.RED, 4⟩, ⟨Color.RED, 2⟩, ⟨Color.RED, 1⟩]

/-- A joker tile; its number is never read by the validator. -/
def joker : Tile := ⟨Color.JOKER, 0⟩

/-! ## Specifications the code is compared with -/

/-- The subsequence `S_m` of the hand selected by the mask `m`: the tiles
`hand[i]` for which bit `i` of `m` is set, in hand order. -/
def mask_subsequence (hand : List Tile) (m : Nat) : List Tile :=
  (hand.enum.filter (fun p => m.testBit p.1)).map (fun p => p.2)

/-- The non-joker tiles of a group, in the order of the group. -/
def real_tiles (group : List Tile) : List Tile :=
  group.filter (fun tile => decide (tile.color ≠ Color.JOKER))

/-- The numbers of the non-joker tiles of a group. -/
def real_numbers (group : List Tile) : List Int :=
  (real_tiles group).map Tile.number

/-- The colors of the non-joker tiles of a group. -/
def real_colors (group : List Tile) : List Color :=
  (real_tiles group).map Tile.color

/-- The number of jokers of a group. -/
def joker_total (group : List Tile) : Nat :=
  (group.filter (fun tile => decide (tile.color = Color.JOKER))).length

/-- The sum, over the consecutive pairs of a list of numbers, of the
difference minus one. -/
def gap_sum : List Int → Int
  | a :: b :: rest => (b - a - 1) + gap_sum (b :: rest)
  | _ => 0

/-- The specification of a run: at least `MIN_GROUP_SIZE` tiles, the non-joker
tiles share one color, their numbers are pairwise distinct, and the gaps
between the sorted numbers add up to at most the number of jokers. -/
def is_run_spec (group : List Tile) : Prop :=
  MIN_GROUP_SIZE ≤ (group.length : Int) ∧
  (∀ t ∈ real_tiles group, ∀ u ∈ real_tiles group, t.color = u.color) ∧
  (real_numbers group).Nodup ∧
  gap_sum (List.insertionSort (fun a b => a ≤ b) (real_numbers group)) ≤ (joker_total group : Int)

/-- The specification of a set: at least `MIN_GROUP_SIZE` tiles, the non-joker
tiles share one number, and their colors are pairwise distinct. -/
def is_set_spec (group : List Tile) : Prop :=
  MIN_GROUP_SIZE ≤ (group.length : Int) ∧
  (∀ t ∈ real_tiles group, ∀ u ∈ real_tiles group, t.number = u.number) ∧
  (real_colors group).Nodup

/-! ## Vocabulary of the statements -/

/-- Every group of the list is a valid meld: `is_set` or `is_run` accepts it. -/
def AllValid (groups : List (List Tile)) : Prop :=
  ∀ g ∈ groups, is_set g = true ∨ is_run g = true

/-- Every arrangement stored in the memo is the empty one. -/
def MemoEmpty (memo : List (String × List (List Tile))) : Prop :=
  ∀ entry ∈ memo, entry.2 = []

/-- What a run of the helper (or of one of its loops, which also owns the
popped tiles `extra`) from state `s` to state `s1` guarantees: a run that ends
with an empty result has put the tiles and groups back; a memo of failures
stays one; and a run that ends with a result has returned its groups, used up
the remaining tiles, and its groups hold exactly the tiles that were in the
groups, in the remaining tiles and in `extra` before. -/
structure Post (extra : List Tile) (s s1 : State) : Prop where
  restored : s1.result = [] →
    s1.remaining_tiles = s.remaining_tiles ∧ s1.groups = s.groups
  memo_ok : MemoEmpty s.memo → MemoEmpty s1.memo
  solved : MemoEmpty s.memo → s1.result ≠ [] →
    s1.result = s1.groups ∧ s1.remaining_tiles = [] ∧
    s1.groups.flatten.Perm (s.groups.flatten ++ s.remaining_tiles ++ extra) ∧
    (AllValid s.groups → AllValid s1.groups)

/-- The guarantee of a loop of the helper: the flag says whether a result was
found, and the states are related by `Post`. -/
def LoopPost (tile : Tile) (s : State) (r : State × Bool) : Prop :=
  (r.2 = true → r.1.result ≠ []) ∧ (r.2 = false → r.1.result = []) ∧ Post [tile] s r.1

/-! ## Further inputs used in the statements -/

/-- The four 7s, one of each playable color, followed by a joker. -/
def four_sevens_and_joker : List Tile :=
  [⟨Color.RED, 7⟩, ⟨Color.BLUE, 7⟩, ⟨Color.BLACK, 7⟩, ⟨Color.YELLOW, 7⟩, joker]

/-- Four jokers, each carrying the number 1. -/
def four_jokers : List Tile :=
  [⟨Color.JOKER, 1⟩, ⟨Color.JOKER, 1⟩, ⟨Color.JOKER, 1⟩, ⟨Color.JOKER, 1⟩]

/-- A red tile numbered -1 followed by the blue 5 and the black 5. -/
def minus_one_first : List Tile :=
  [⟨Color.RED, -1⟩, ⟨Color.BLUE, 5⟩, ⟨Color.BLACK, 5⟩]

/-- The tiles of `minus_one_first` with the first two exchanged. -/
def minus_one_second : List Tile :=
  [⟨Color.BLUE, 5⟩, ⟨Color.RED, -1⟩, ⟨Color.BLACK, 5⟩]

/-! ## Two runs of the search side by side -/

theorem insertIdx_eraseIdx_self {α : Type} :
    ∀ (l : List α) (i : Nat) (a : α), l[i]? = some a → (l.eraseIdx i).insertIdx i a = l
  | [], i, a, h => by simp at h
  | x :: l, 0, a, h => by
    simp at h
    simp [h]
  | x :: l, i + 1, a, h => by
    simp at h
    simp [List.insertIdx_succ_cons, insertIdx_eraseIdx_self l i a h]

theorem erase_two_insert_two {α : Type} (l : List α) (i j : Nat) (a b : α) (hij : i < j)
    (hi : l[i]? = some a) (hj : l[j]? = some b) :
    (((l.eraseIdx j).eraseIdx i).insertIdx i a).insertIdx j b = l := by
  have h1 : (l.eraseIdx j)[i]? = some a := by
    rw [List.getElem?_eraseIdx_of_lt l j i hij]; exact hi
  rw [insertIdx_eraseIdx_self _ i a h1, insertIdx_eraseIdx_self l j b hj]

theorem perm_cons_eraseIdx {α : Type} (l : List α) (i : Nat) (a : α) (h : l[i]? = some a) :
    l.Perm (a :: l.eraseIdx i) := by
  have hlen : i < l.length := by
    rcases List.getElem?_eq_some_iff.mp h with ⟨hl, _⟩
    exact hl
  have h1 := List.perm_insertIdx a (l.eraseIdx i) (n := i)
    (by rw [List.length_eraseIdx_of_lt hlen]; omega)
  rw [insertIdx_eraseIdx_self l i a h] at h1
  exact h1

theorem perm_erase_two {α : Type} (l : List α) (i j : Nat) (a b : α) (hij : i < j)
    (hi : l[i]? = some a) (hj : l[j]? = some b) :
    l.Perm (a :: b :: (l.eraseIdx j).eraseIdx i) := by
  have h1 : (l.eraseIdx j)[i]? = some a := by
    rw [List.getElem?_eraseIdx_of_lt l j i hij]; exact hi
  have p1 := perm_cons_eraseIdx l j b hj
  have p2 := perm_cons_eraseIdx (l.eraseIdx j) i a h1
  exact p1.trans ((p2.cons b).trans (List.Perm.swap a b _))

theorem flatten_set_concat {α : Type} (t : α) :
    ∀ (l : List (List α)) (k : Nat) (g : List α), l[k]? = some g →
      (l.set k (g ++ [t])).flatten.Perm (l.flatten ++ [t])
  | [], k, g, h => by simp at h
  | x :: l, 0, g, h => by
    simp at h
    subst h
    simp only [List.set_cons_zero, List.flatten_cons, List.append_assoc]
    exact List.Perm.append_left _ List.perm_append_comm
  | x :: l, k + 1, g, h => by
    simp at h
    simp only [List.set_cons_succ, List.flatten_cons, List.append_assoc]
    exact List.Perm.append_left _ (flatten_set_concat t l k g h)

theorem set_getElem?_self {α : Type} :
    ∀ (l : List α) (k : Nat) (g : α), l[k]? = some g → l.set k g = l
  | [], k, g, h => by simp at h
  | x :: l, 0, g, h => by
    simp at h
    simp [h]
  | x :: l, k + 1, g, h => by
    simp at h
    simp [set_getElem?_self l k g h]

theorem set_concat_dropLast {α : Type} (t : α) (l : List (List α)) (k : Nat) (g : List α)
    (h : l[k]? = some g) :
    (l.set k (g ++ [t])).set k (g ++ [t]).dropLast = l := by
  rw [List.set_set, List.dropLast_concat]
  exact set_getElem?_self l k g h

/-! ## The guarantee of the helper and of its loops -/

theorem post_transfer {extra : List Tile} {s s0 s1 : State}
    (hrem : s0.remaining_tiles = s.remaining_tiles) (hgrp : s0.groups = s.groups)
    (hmemo : MemoEmpty s.memo → MemoEmpty s0.memo) (h : Post extra s0 s1) :
    Post extra s s1 where
  restored := fun h1 => by
    have := h.restored h1
    rw [hrem, hgrp] at this
    exact this
  memo_ok := fun hm => h.memo_ok (hmemo hm)
  solved := fun hm hne => by
    have := h.solved (hmemo hm) hne
    rw [hrem, hgrp] at this
    exact this

theorem post_of_unchanged (extra : List Tile) (s : State) (h : s.result = []) :
    Post extra s s where
  restored := fun _ => ⟨rfl, rfl⟩
  memo_ok := fun hm => hm
  solved := fun _ hne => absurd h hne

theorem loop_post_transfer {tile : Tile} {s : State} (s0 : State) {r : State × Bool}
    (hrem : s0.remaining_tiles = s.remaining_tiles) (hgrp : s0.groups = s.groups)
    (hmemo : MemoEmpty s.memo → MemoEmpty s0.memo) (h : LoopPost tile s0 r) :
    LoopPost tile s r :=
  ⟨h.1, h.2.1, post_transfer hrem hgrp hmemo h.2.2⟩

theorem isEmpty_eq_false_iff_ne {α : Type} (l : List α) : (!l.isEmpty) = true ↔ l ≠ [] := by
  cases l <;> simp

theorem all_valid_set {groups : List (List Tile)} (h : AllValid groups) (k : Nat)
    (g : List Tile) (hg : is_set g = true ∨ is_run g = true) : AllValid (groups.set k g) := by
  intro x hx
  rcases List.mem_or_eq_of_mem_set hx with hx | hx
  · exact h x hx
  · rw [hx]; exact hg

theorem all_valid_concat {groups : List (List Tile)} (h : AllValid groups)
    (g : List Tile) (hg : is_set g = true ∨ is_run g = true) : AllValid (groups ++ [g]) := by
  intro x hx
  rcases List.mem_append.mp hx with hx | hx
  · exact h x hx
  · rw [List.mem_singleton.mp hx]; exact hg

theorem extend_loop_post (recurse : State → Except Fault State)
    (hrec : ∀ s s1, s.result = [] → recurse s = Except.ok s1 → Post [] s s1)
    (tile : Tile) :
    ∀ (n k : Nat) (s : State) (r : State × Bool), s.result = [] →
      extend_loop recurse tile n k s = Except.ok r → LoopPost tile s r := by
  intro n
  induction n with
  | zero =>
    intro k s r hs h
    simp only [extend_loop, Except.ok.injEq] at h
    subst h
    exact ⟨fun h => by simp at h, fun _ => hs, post_of_unchanged _ s hs⟩
  | succ n ih =>
    intro k s r hs h
    simp only [extend_loop] at h
    split at h
    · simp at h
    · rename_i group hgroup
      split at h
      · rename_i hcan
        split at h
        · simp at h
        · rename_i s1 hs1
          have hpost := hrec _ s1 (by exact hs) hs1
          split at h
          · rename_i hne
            simp only [Except.ok.injEq] at h
            subst h
            have hne1 : s1.result ≠ [] := (isEmpty_eq_false_iff_ne _).mp hne
            refine ⟨fun _ => hne1, fun h => by simp at h, ?_, ?_, ?_⟩
            · intro h0; exact absurd h0 hne1
            · exact hpost.memo_ok
            · intro hm _
              obtain ⟨h1, h2, h3, h4⟩ := hpost.solved hm hne1
              refine ⟨h1, h2, ?_, ?_⟩
              · simp only [List.append_nil] at h3
                refine h3.trans ?_
                have := flatten_set_concat tile s.groups k group hgroup
                refine (this.append_right s.remaining_tiles).trans ?_
                simp only [List.append_assoc]
                exact List.Perm.append_left _ List.perm_append_comm
              · intro hv
                exact h4 (all_valid_set hv k _ (by simpa [can_form_group] using hcan))
          · rename_i hne
            have he : s1.result = [] := by
              by_contra hc
              exact hne ((isEmpty_eq_false_iff_ne _).mpr hc)
            obtain ⟨hrem, hgrp⟩ := hpost.restored he
            simp only at hrem hgrp
            have hk : k < s.groups.length := by
              rcases List.getElem?_eq_some_iff.mp hgroup with ⟨hl, _⟩
              exact hl
            have hget : s1.groups[k]? = some (group ++ [tile]) := by
              rw [hgrp]; exact List.getElem?_set_self hk
            rw [hget] at h
            simp only at h
            have hback : s1.groups.set k (group ++ [tile]).dropLast = s.groups := by
              rw [hgrp]; exact set_concat_dropLast tile s.groups k group hgroup
            rw [hback] at h
            exact loop_post_transfer { s1 with groups := s.groups } hrem rfl
              hpost.memo_ok (ih _ _ _ he h)
      · exact ih _ _ _ hs h

theorem perm_new_group (G R E : List Tile) (tile ti tj : Tile)
    (h : R.Perm (ti :: tj :: E)) :
    ((G ++ [[tile, ti, tj]].flatten) ++ E ++ []).Perm (G ++ R ++ [tile]) := by
  simp only [List.flatten_cons, List.flatten_nil, List.append_nil, List.append_assoc]
  refine List.Perm.append_left G ?_
  refine List.Perm.trans ?_ List.perm_append_comm
  exact List.Perm.cons tile h.symm

theorem pair_loop_post (recurse : State → Except Fault State)
    (hrec : ∀ s s1, s.result = [] → recurse s = Except.ok s1 → Post [] s s1)
    (tile : Tile) (i : Nat) :
    ∀ (n j : Nat) (s : State) (r : State × Bool), i < j → s.result = [] →
      pair_loop recurse tile i n j s = Except.ok r → LoopPost tile s r := by
  intro n
  induction n with
  | zero =>
    intro j s r _ hs h
    simp only [pair_loop] at h
    split at h
    · simp at h
    · simp only [Except.ok.injEq] at h
      subst h
      exact ⟨fun h => by simp at h, fun _ => hs, post_of_unchanged _ s hs⟩
  | succ n ih =>
    intro j s r hij hs h
    simp only [pair_loop] at h
    split at h
    · split at h
      · rename_i tile_i tile_j hi hj
        split at h
        · rename_i hvalid
          split at h
          · simp at h
          · rename_i s1 hs1
            have hpost := hrec _ s1 (by exact hs) hs1
            split at h
            · rename_i hne
              simp only [Except.ok.injEq] at h
              subst h
              have hne1 : s1.result ≠ [] := (isEmpty_eq_false_iff_ne _).mp hne
              refine ⟨fun _ => hne1, fun h => by simp at h, ?_, ?_, ?_⟩
              · intro h0; exact absurd h0 hne1
              · exact hpost.memo_ok
              · intro hm _
                obtain ⟨h1, h2, h3, h4⟩ := hpost.solved hm hne1
                refine ⟨h1, h2, ?_, ?_⟩
                · refine h3.trans ?_
                  simp only [List.flatten_append]
                  exact perm_new_group _ _ _ tile tile_i tile_j
                    (perm_erase_two s.remaining_tiles i j tile_i tile_j hij hi hj)
                · intro hv
                  exact h4 (all_valid_concat hv _ (by simpa using hvalid))
            · rename_i hne
              have he : s1.result = [] := by
                by_contra hc
                exact hne ((isEmpty_eq_false_iff_ne _).mpr hc)
              obtain ⟨hrem, hgrp⟩ := hpost.restored he
              simp only at hrem hgrp
              split at h
              · simp at h
              · split at h
                · simp at h
                · have hback : ((s1.remaining_tiles.insertIdx i tile_i).insertIdx j tile_j)
                      = s.remaining_tiles := by
                    rw [hrem]
                    exact erase_two_insert_two s.remaining_tiles i j tile_i tile_j hij hi hj
                  have hgback : s1.groups.dropLast = s.groups := by
                    rw [hgrp]; exact List.dropLast_concat
                  rw [hback, hgback] at h
                  exact loop_post_transfer
                    { s1 with remaining_tiles := s.remaining_tiles, groups := s.groups }
                    rfl rfl hpost.memo_ok (ih _ _ _ (by omega) he h)
        · exact ih _ _ _ (by omega) hs h
      · simp at h
    · simp only [Except.ok.injEq] at h
      subst h
      exact ⟨fun h => by simp at h, fun _ => hs, post_of_unchanged _ s hs⟩

theorem new_group_loop_post (recurse : State → Except Fault State)
    (hrec : ∀ s s1, s.result = [] → recurse s = Except.ok s1 → Post [] s s1)
    (tile : Tile) :
    ∀ (n i : Nat) (s : State) (r : State × Bool), s.result = [] →
      new_group_loop recurse tile n i s = Except.ok r → LoopPost tile s r := by
  intro n
  induction n with
  | zero =>
    intro i s r hs h
    simp only [new_group_loop, Except.ok.injEq] at h
    subst h
    exact ⟨fun h => by simp at h, fun _ => hs, post_of_unchanged _ s hs⟩
  | succ n ih =>
    intro i s r hs h
    simp only [new_group_loop] at h
    split at h
    · simp at h
    · rename_i s1 hs1
      simp only [Except.ok.injEq] at h
      subst h
      exact pair_loop_post recurse hrec tile i _ _ s _ (by omega) hs hs1
    · rename_i s1 hs1
      have hp := pair_loop_post recurse hrec tile i _ _ s _ (by omega) hs hs1
      have he : s1.result = [] := hp.2.1 rfl
      obtain ⟨hrem, hgrp⟩ := hp.2.2.restored he
      exact loop_post_transfer s1 hrem hgrp hp.2.2.memo_ok (ih _ _ _ he h)

theorem memo_find_mem (memo : List (String × List (List Tile))) (key : String)
    (v : List (List Tile)) (h : memo_find memo key = some v) : ∃ entry ∈ memo, entry.2 = v := by
  unfold memo_find at h
  split at h
  · rename_i entry hentry
    simp only [Option.some.injEq] at h
    exact ⟨entry, List.mem_of_find?_eq_some hentry, h⟩
  · simp at h

theorem memo_empty_assign {memo : List (String × List (List Tile))} (h : MemoEmpty memo)
    (key : String) : MemoEmpty (memo_assign memo key []) := by
  intro entry hentry
  unfold memo_assign at hentry
  rcases List.mem_cons.mp hentry with he | he
  · rw [he]
  · exact h entry (List.mem_filter.mp he).1

theorem helper_post (start_idx end_idx : Nat) :
    ∀ (fuel : Nat) (s s1 : State), s.result = [] →
      valid_rummikub_arrangement_helper fuel start_idx end_idx s = Except.ok s1 →
      Post [] s s1 := by
  intro fuel
  induction fuel with
  | zero =>
    intro s s1 _ h
    simp [valid_rummikub_arrangement_helper] at h
  | succ fuel ih =>
    intro s s1 hs h
    simp only [valid_rummikub_arrangement_helper] at h
    split at h
    · rename_i stored hstored
      simp only [Except.ok.injEq] at h
      subst h
      refine ⟨fun _ => ⟨rfl, rfl⟩, fun hm => hm, ?_⟩
      intro hm hne
      obtain ⟨entry, hmem, hv⟩ := memo_find_mem _ _ _ hstored
      exact absurd ((hm entry hmem).symm.trans hv).symm hne
    · split at h
      · rename_i hlast
        simp only [Except.ok.injEq] at h
        subst h
        have hnil : s.remaining_tiles = [] := List.getLast?_eq_none_iff.mp hlast
        refine ⟨fun _ => ⟨rfl, rfl⟩, fun hm => hm, ?_⟩
        intro _ _
        refine ⟨rfl, hnil, ?_, fun hv => hv⟩
        simp [hnil]
      · rename_i tile hlast
        have hsplit : s.remaining_tiles.dropLast ++ [tile] = s.remaining_tiles :=
          List.dropLast_append_getLast? tile hlast
        split at h
        · simp at h
        · rename_i s2 hs2
          simp only [Except.ok.injEq] at h
          subst h
          have hp := extend_loop_post _ ih tile _ _ _ _ (by exact hs) hs2
          have hne : s2.result ≠ [] := hp.1 rfl
          refine ⟨fun h0 => absurd h0 hne, hp.2.2.memo_ok, ?_⟩
          intro hm _
          obtain ⟨h1, h2, h3, h4⟩ := hp.2.2.solved hm hne
          refine ⟨h1, h2, ?_, h4⟩
          simp only [List.append_assoc, hsplit] at h3
          simpa using h3
        · rename_i s2 hs2
          have hp := extend_loop_post _ ih tile _ _ _ _ (by exact hs) hs2
          have he2 : s2.result = [] := hp.2.1 rfl
          obtain ⟨hrem2, hgrp2⟩ := hp.2.2.restored he2
          simp only at hrem2 hgrp2
          split at h
          · simp at h
          · rename_i s3 hs3
            simp only [Except.ok.injEq] at h
            subst h
            have hq := new_group_loop_post _ ih tile _ _ _ _ he2 hs3
            have hne : s3.result ≠ [] := hq.1 rfl
            refine ⟨fun h0 => absurd h0 hne, fun hm => hq.2.2.memo_ok (hp.2.2.memo_ok hm), ?_⟩
            intro hm _
            obtain ⟨h1, h2, h3, h4⟩ := hq.2.2.solved (hp.2.2.memo_ok hm) hne
            refine ⟨h1, h2, ?_, ?_⟩
            · rw [hrem2, hgrp2] at h3
              simp only [List.append_assoc, hsplit] at h3
              simpa using h3
            · rw [hgrp2] at h4; exact h4
          · rename_i s3 hs3
            simp only [Except.ok.injEq] at h
            subst h
            have hq := new_group_loop_post _ ih tile _ _ _ _ he2 hs3
            have he3 : s3.result = [] := hq.2.1 rfl
            obtain ⟨hrem3, hgrp3⟩ := hq.2.2.restored he3
            simp only at hrem3 hgrp3
            refine ⟨fun _ => ⟨?_, ?_⟩, ?_, ?_⟩
            · show s3.remaining_tiles ++ [tile] = s.remaining_tiles
              rw [hrem3, hrem2, hsplit]
            · show s3.groups = s.groups
              rw [hgrp3, hgrp2]
            · intro hm
              exact memo_empty_assign (hq.2.2.memo_ok (hp.2.2.memo_ok hm)) _
            · intro _ hne
              exact absurd he3 hne

/-! ## The helper always returns -/

theorem extend_loop_total (recurse : State → Except Fault State)
    (hrec : ∀ s s1, s.result = [] → recurse s = Except.ok s1 → Post [] s s1)
    (m : Nat)
    (htot : ∀ s, s.result = [] → s.remaining_tiles.length < m → ∃ s1, recurse s = Except.ok s1)
    (tile : Tile) :
    ∀ (n k : Nat) (s : State), s.result = [] → s.remaining_tiles.length < m →
      k + n = s.groups.length → ∃ r, extend_loop recurse tile n k s = Except.ok r := by
  intro n
  induction n with
  | zero =>
    intro k s _ _ _
    exact ⟨(s, false), rfl⟩
  | succ n ih =>
    intro k s hs hlen hk
    have hk1 : k < s.groups.length := by omega
    have hget : s.groups[k]? = some s.groups[k] := List.getElem?_eq_getElem hk1
    simp only [extend_loop, hget]
    by_cases hcan : can_form_group tile s.groups[k] = true
    · simp only [hcan, if_true]
      obtain ⟨s1, hs1⟩ := htot { s with groups := s.groups.set k (s.groups[k] ++ [tile]) } hs hlen
      have hpost := hrec _ s1 (by exact hs) hs1
      simp only [hs1]
      by_cases hne : (!s1.result.isEmpty) = true
      · simp only [hne, if_true]
        exact ⟨_, rfl⟩
      · simp only [hne, if_false]
        have he : s1.result = [] := by
          by_contra hc
          exact hne ((isEmpty_eq_false_iff_ne _).mpr hc)
        obtain ⟨hrem, hgrp⟩ := hpost.restored he
        simp only at hrem hgrp
        have hget1 : s1.groups[k]? = some (s.groups[k] ++ [tile]) := by
          rw [hgrp]; exact List.getElem?_set_self hk1
        simp only [hget1]
        refine ih _ _ he ?_ ?_
        · show s1.remaining_tiles.length < m
          rw [hrem]; exact hlen
        · show k + 1 + n = (s1.groups.set k _).length
          rw [List.length_set, hgrp, List.length_set]; omega
    · simp only [hcan, Bool.false_eq_true, if_false]
      exact ih _ _ hs hlen (by omega)

theorem pair_loop_total (recurse : State → Except Fault State)
    (hrec : ∀ s s1, s.result = [] → recurse s = Except.ok s1 → Post [] s s1)
    (m : Nat)
    (htot : ∀ s, s.result = [] → s.remaining_tiles.length < m → ∃ s1, recurse s = Except.ok s1)
    (tile : Tile) (i : Nat) :
    ∀ (n j : Nat) (s : State), i < j → s.result = [] → s.remaining_tiles.length < m →
      s.remaining_tiles.length ≤ j + n → ∃ r, pair_loop recurse tile i n j s = Except.ok r := by
  intro n
  induction n with
  | zero =>
    intro j s _ _ _ hn
    have : ¬ j < s.remaining_tiles.length := by omega
    simp only [pair_loop, this, if_false]
    exact ⟨_, rfl⟩
  | succ n ih =>
    intro j s hij hs hlen hn
    by_cases hj : j < s.remaining_tiles.length
    · have hi : i < s.remaining_tiles.length := by omega
      have hgi : s.remaining_tiles[i]? = some s.remaining_tiles[i] := List.getElem?_eq_getElem hi
      have hgj : s.remaining_tiles[j]? = some s.remaining_tiles[j] := List.getElem?_eq_getElem hj
      simp only [pair_loop, hj, if_true, hgi, hgj]
      by_cases hvalid : (is_set [tile, s.remaining_tiles[i], s.remaining_tiles[j]] ||
          is_run [tile, s.remaining_tiles[i], s.remaining_tiles[j]]) = true
      · simp only [hvalid, if_true]
        have hl1 : (s.remaining_tiles.eraseIdx j).length = s.remaining_tiles.length - 1 :=
          List.length_eraseIdx_of_lt hj
        have hl2 : ((s.remaining_tiles.eraseIdx j).eraseIdx i).length
            = s.remaining_tiles.length - 2 := by
          rw [List.length_eraseIdx_of_lt (by omega), hl1]; omega
        obtain ⟨s1, hs1⟩ := htot
          { s with
            groups := s.groups ++ [[tile, s.remaining_tiles[i], s.remaining_tiles[j]]]
            remaining_tiles := (s.remaining_tiles.eraseIdx j).eraseIdx i } hs
          (by show ((s.remaining_tiles.eraseIdx j).eraseIdx i).length < m
              omega)
        have hpost := hrec _ s1 (by exact hs) hs1
        simp only [hs1]
        by_cases hne : (!s1.result.isEmpty) = true
        · simp only [hne, if_true]
          exact ⟨_, rfl⟩
        · simp only [hne, if_false]
          have he : s1.result = [] := by
            by_contra hc
            exact hne ((isEmpty_eq_false_iff_ne _).mpr hc)
          obtain ⟨hrem, hgrp⟩ := hpost.restored he
          simp only at hrem hgrp
          have hb1 : ¬ s1.remaining_tiles.length < i := by
            rw [hrem, hl2]; omega
          have hl3 : (s1.remaining_tiles.insertIdx i s.remaining_tiles[i]).length
              = s.remaining_tiles.length - 1 := by
            rw [List.length_insertIdx _ _ (by omega), hrem, hl2]; omega
          have hb2 : ¬ (s1.remaining_tiles.insertIdx i s.remaining_tiles[i]).length < j := by
            rw [hl3]; omega
          simp only [hb1, hb2, if_false]
          have hback : ((s1.remaining_tiles.insertIdx i s.remaining_tiles[i]).insertIdx j
              s.remaining_tiles[j]) = s.remaining_tiles := by
            rw [hrem]
            exact erase_two_insert_two s.remaining_tiles i j _ _ hij hgi hgj
          rw [hback]
          exact ih _ _ (by omega) he hlen (by show s.remaining_tiles.length ≤ j + 1 + n; omega)
      · simp only [hvalid, Bool.false_eq_true, if_false]
        exact ih _ _ (by omega) hs hlen (by omega)
    · simp only [pair_loop, hj, if_false]
      exact ⟨_, rfl⟩

theorem new_group_loop_total (recurse : State → Except Fault State)
    (hrec : ∀ s s1, s.result = [] → recurse s = Except.ok s1 → Post [] s s1)
    (m : Nat)
    (htot : ∀ s, s.result = [] → s.remaining_tiles.length < m → ∃ s1, recurse s = Except.ok s1)
    (tile : Tile) :
    ∀ (n i : Nat) (s : State), s.result = [] → s.remaining_tiles.length < m →
      ∃ r, new_group_loop recurse tile n i s = Except.ok r := by
  intro n
  induction n with
  | zero =>
    intro i s _ _
    exact ⟨(s, false), rfl⟩
  | succ n ih =>
    intro i s hs hlen
    obtain ⟨r, hr⟩ := pair_loop_total recurse hrec m htot tile i
      (s.remaining_tiles.length - (i + 1)) (i + 1) s (by omega) hs hlen (by omega)
    have hp := pair_loop_post recurse hrec tile i _ _ s r (by omega) hs hr
    simp only [new_group_loop, hr]
    rcases r with ⟨s1, flag⟩
    cases flag with
    | true => exact ⟨_, rfl⟩
    | false =>
      have he : s1.result = [] := hp.2.1 rfl
      obtain ⟨hrem, _⟩ := hp.2.2.restored he
      simp only at hrem
      exact ih _ _ he (by rw [hrem]; exact hlen)

theorem helper_total (start_idx end_idx : Nat) :
    ∀ (fuel : Nat) (s : State), s.result = [] → s.remaining_tiles.length < fuel →
      ∃ s1, valid_rummikub_arrangement_helper fuel start_idx end_idx s = Except.ok s1 := by
  intro fuel
  induction fuel with
  | zero =>
    intro s _ h
    omega
  | succ fuel ih =>
    intro s hs hlen
    simp only [valid_rummikub_arrangement_helper]
    split
    · exact ⟨_, rfl⟩
    · split
      · exact ⟨_, rfl⟩
      · rename_i tile hlast
        have hne : s.remaining_tiles ≠ [] := by
          intro h; rw [h] at hlast; simp at hlast
        have hpos : 0 < s.remaining_tiles.length := List.length_pos.mpr hne
        have hlen0 : s.remaining_tiles.dropLast.length < fuel := by
          rw [List.length_dropLast]; omega
        obtain ⟨r, hr⟩ := extend_loop_total _ (helper_post start_idx end_idx fuel) fuel ih tile
          s.groups.length 0 { s with remaining_tiles := s.remaining_tiles.dropLast } hs hlen0
          (by simp)
        have hp := extend_loop_post _ (helper_post start_idx end_idx fuel) tile _ _ _ _
          (by exact hs) hr
        simp only [hr]
        rcases r with ⟨s2, flag⟩
        cases flag with
        | true => exact ⟨_, rfl⟩
        | false =>
          have he2 : s2.result = [] := hp.2.1 rfl
          obtain ⟨hrem2, _⟩ := hp.2.2.restored he2
          simp only at hrem2
          obtain ⟨r3, hr3⟩ := new_group_loop_total _ (helper_post start_idx end_idx fuel) fuel ih
            tile (end_idx - start_idx) start_idx s2 he2 (by rw [hrem2]; exact hlen0)
          simp only [hr3]
          rcases r3 with ⟨s3, flag3⟩
          cases flag3 with
          | true => exact ⟨_, rfl⟩
          | false => exact ⟨_, rfl⟩

/-! ## Arrangement solver: results -/

/-- The one-worker run never stops on a fault: the budget `tiles.size() + 1`
is enough and no access is out of bounds. -/
theorem solve_run_ok (tiles : List Tile) : ∃ s, solve_run tiles = Except.ok s :=
  helper_total 0 tiles.length (tiles.length + 1) (initial_state tiles) rfl
    (Nat.lt_succ_self _)

/-- The arrangement `valid_rummikub_arrangement` returns is the result of the
one-worker run, which ends normally. -/
theorem valid_rummikub_arrangement_eq (tiles : List Tile) :
    ∃ s, solve_run tiles = Except.ok s ∧ valid_rummikub_arrangement tiles = s.result := by
  obtain ⟨s, hs⟩ := solve_run_ok tiles
  refine ⟨s, hs, ?_⟩
  unfold valid_rummikub_arrangement
  rw [hs]
  cases hres : s.result with
  | nil => simp [hres]
  | cons g gs => simp [hres]

/-- A non-empty arrangement returned by `valid_rummikub_arrangement` holds
exactly the input tiles, in valid groups. -/
theorem valid_rummikub_arrangement_sound (tiles : List Tile)
    (hne : valid_rummikub_arrangement tiles ≠ []) :
    (valid_rummikub_arrangement tiles).flatten.Perm tiles ∧
    AllValid (valid_rummikub_arrangement tiles) := by
  obtain ⟨s, hs, hres⟩ := valid_rummikub_arrangement_eq tiles
  rw [hres] at hne ⊢
  have hp := helper_post 0 tiles.length (tiles.length + 1) (initial_state tiles) s rfl hs
  have hm : MemoEmpty (initial_state tiles).memo := by
    intro entry h
    simp [initial_state] at h
  obtain ⟨h1, _, h3, h4⟩ := hp.solved hm hne
  rw [h1]
  refine ⟨?_, h4 ?_⟩
  · simpa [initial_state] using h3
  · intro g hg
    simp [initial_state] at hg

/-- C2, the code at the failing input.  The red tiles 4, 5, 2, 3, 1 are one
valid run, yet the one-worker run of the solver on them ends normally with the
empty result. -/
theorem solver_misses_shuffled_run :
    is_run red_shuffled = true ∧
    (solve_run red_shuffled).map State.result = Except.ok [] ∧
    valid_rummikub_arrangement red_shuffled = [] := by
  decide

/-- C6, the code at the failing input.  The same five red tiles in two orders:
in ascending order the solver returns an arrangement, in the order
4, 5, 2, 3, 1 its run ends normally with the empty result. -/
theorem solver_depends_on_order :
    List.Perm red_ascending red_shuffled ∧
    valid_rummikub_arrangement red_ascending = [red_found] ∧
    (solve_run red_shuffled).map State.result = Except.ok [] := by
  decide

/-! ## Move enumerator -/

theorem shl_one_eq (k : Nat) (h : k < 31) : shl_one k = 2 ^ k := by
  have h1 : 2 ^ k < 2 ^ 31 := Nat.pow_lt_pow_right (by decide) h
  have h2 : (1 <<< k) % 2 ^ 32 = 2 ^ k := by
    rw [Nat.one_shiftLeft]
    exact Nat.mod_eq_of_lt (by omega)
  simp only [shl_one, h2, h1, if_true]

theorem and_two_pow_ne_zero (m i : Nat) : (m &&& 2 ^ i ≠ 0) ↔ m.testBit i = true := by
  constructor
  · intro h
    by_contra hb
    apply h
    apply Nat.eq_of_testBit_eq
    intro j
    rw [Nat.testBit_and, Nat.testBit_two_pow, Nat.zero_testBit]
    by_cases hij : i = j
    · subst hij; simp [hb]
    · simp [hij]
  · intro hb h
    have : (m &&& 2 ^ i).testBit i = true := by
      rw [Nat.testBit_and, Nat.testBit_two_pow_self, hb]; rfl
    rw [h, Nat.zero_testBit] at this
    exact Bool.noConfusion this

theorem subset_loop_eq (index : Nat) :
    ∀ (rest : List Tile) (i : Nat) (subset : List Tile), i + rest.length ≤ 31 →
      subset_loop index rest i subset
        = subset ++ ((rest.enumFrom i).filter (fun p => index.testBit p.1)).map (fun p => p.2)
  | [], i, subset, _ => by simp [subset_loop]
  | tile :: rest, i, subset, h => by
    have hi : i < 31 := by simp only [List.length_cons] at h; omega
    have hrest : i + 1 + rest.length ≤ 31 := by simp only [List.length_cons] at h; omega
    simp only [subset_loop, shl_one_eq i hi, List.enumFrom_cons]
    by_cases hb : index.testBit i = true
    · have : index &&& 2 ^ i ≠ 0 := (and_two_pow_ne_zero index i).mpr hb
      simp only [this, not_false_eq_true, if_true, ne_eq]
      rw [subset_loop_eq index rest (i + 1) _ hrest]
      simp [List.filter_cons, hb]
    · have : ¬ (index &&& 2 ^ i ≠ 0) := fun hc => hb ((and_two_pow_ne_zero index i).mp hc)
      simp only [this, if_false]
      rw [subset_loop_eq index rest (i + 1) _ hrest]
      simp [List.filter_cons, hb]

theorem deref_eq_mask_subsequence (hand : List Tile) (h : hand.length < 31) (index : Nat) :
    SubsetsIterator.deref hand index = mask_subsequence hand index := by
  unfold SubsetsIterator.deref mask_subsequence
  rw [subset_loop_eq index hand 0 [] (by omega)]
  simp [List.enum]

theorem getMoveList_loop_eq (hand board : List Tile) :
    ∀ (n index : Nat) (movelist : List (List Tile)),
      getMoveList_loop hand board n index movelist
        = movelist ++ ((List.range' index n).map (SubsetsIterator.deref hand)).filter
            (fun S => !(valid_rummikub_arrangement (board ++ S)).isEmpty)
  | 0, _, movelist => by simp [getMoveList_loop]
  | n + 1, index, movelist => by
    simp only [getMoveList_loop, List.range'_succ, List.map_cons, List.filter_cons]
    by_cases hv :
        (!(valid_rummikub_arrangement (board ++ SubsetsIterator.deref hand index)).isEmpty) = true
    · simp only [hv, if_true]
      rw [getMoveList_loop_eq hand board n (index + 1)]
      simp
    · simp only [hv, if_false]
      exact getMoveList_loop_eq hand board n (index + 1) movelist

/-- C3.  For a hand of fewer than 31 tiles, `getMoveList(hand, board)` is the
list of the subsequences `S_m` of the hand, for the masks `m = 0, 1, ...,
2^|hand| - 1` in increasing order, kept exactly when
`valid_rummikub_arrangement(board ++ S_m)` is non-empty: each of the
`2^|hand|` candidates is tried once and nothing else is returned. -/
theorem getMoveList_eq_filter (hand board : List Tile) (h : hand.length < 31) :
    getMoveList hand board
      = ((List.range (2 ^ hand.length)).map (mask_subsequence hand)).filter
          (fun S => !(valid_rummikub_arrangement (board ++ S)).isEmpty) := by
  unfold getMoveList SubsetsGenerator.end_index
  rw [getMoveList_loop_eq, shl_one_eq _ h, List.nil_append, List.range_eq_range']
  congr 1
  apply List.map_congr_left
  intro m _
  exact deref_eq_mask_subsequence hand h m

theorem getMoveList_eq_filter_witness :
    main_hand.length < 31 ∧
    getMoveList main_hand main_board
      = ((List.range (2 ^ main_hand.length)).map (mask_subsequence main_hand)).filter
          (fun S => !(valid_rummikub_arrangement (main_board ++ S)).isEmpty) :=
  ⟨by decide, getMoveList_eq_filter main_hand main_board (by decide)⟩

/-! ## Meld validator -/

theorem real_tiles_cons_joker (t : Tile) (l : List Tile) (h : t.color = Color.JOKER) :
    real_tiles (t :: l) = real_tiles l := by
  simp [real_tiles, h]

theorem real_tiles_cons_real (t : Tile) (l : List Tile) (h : t.color ≠ Color.JOKER) :
    real_tiles (t :: l) = t :: real_tiles l := by
  simp [real_tiles, h]

theorem joker_total_cons_joker (t : Tile) (l : List Tile) (h : t.color = Color.JOKER) :
    joker_total (t :: l) = joker_total l + 1 := by
  simp [joker_total, h]

theorem joker_total_cons_real (t : Tile) (l : List Tile) (h : t.color ≠ Color.JOKER) :
    joker_total (t :: l) = joker_total l := by
  simp [joker_total, h]

theorem count_jokers_eq :
    ∀ (l : List Tile) (a b : Int),
      count_jokers l (a, b) = (a - (joker_total l : Int), b + (joker_total l : Int))
  | [], a, b => by simp [count_jokers, joker_total]
  | t :: l, a, b => by
    by_cases h : t.color = Color.JOKER
    · simp only [count_jokers, h, if_true, count_jokers_eq l, joker_total_cons_joker t l h]
      refine Prod.ext ?_ ?_ <;> simp <;> omega
    · simp only [count_jokers, h, if_false, count_jokers_eq l, joker_total_cons_real t l h]

theorem length_eq_real_add_joker :
    ∀ l : List Tile, l.length = (real_tiles l).length + joker_total l
  | [] => by simp [real_tiles, joker_total]
  | t :: l => by
    by_cases h : t.color = Color.JOKER
    · rw [real_tiles_cons_joker t l h, joker_total_cons_joker t l h, List.length_cons,
        length_eq_real_add_joker l]
      omega
    · rw [real_tiles_cons_real t l h, joker_total_cons_real t l h, List.length_cons,
        List.length_cons, length_eq_real_add_joker l]
      omega

theorem size_guard_iff (l : List Tile) :
    ((l.length : Int) - (joker_total l : Int) < MIN_GROUP_SIZE - (0 + (joker_total l : Int)))
      ↔ ¬ MIN_GROUP_SIZE ≤ (l.length : Int) := by
  unfold MIN_GROUP_SIZE
  omega

theorem is_run_loop_cons_real (t : Tile) (rest : List Tile) (fc : Color) (nums : List Int)
    (ht : t.color ≠ Color.JOKER) :
    is_run_loop (t :: rest) fc nums =
      if fc ≠ Color.JOKER ∧ t.color ≠ fc then none
      else if t.number ∈ nums then none
      else is_run_loop rest t.color (nums ++ [t.number]) := by
  simp only [is_run_loop, ht, ne_eq, not_false_eq_true, if_true]
  by_cases hfc : fc = Color.JOKER
  · simp [hfc]
  · by_cases htc : t.color = fc
    · simp [hfc, htc]
    · simp [hfc, htc]

theorem is_run_loop_iff :
    ∀ (l : List Tile) (fc : Color) (nums r : List Int),
      is_run_loop l fc nums = some r ↔
        ((∀ t ∈ real_tiles l, ∀ u ∈ real_tiles l, t.color = u.color) ∧
         (fc ≠ Color.JOKER → ∀ t ∈ real_tiles l, t.color = fc) ∧
         (∀ x ∈ real_numbers l, x ∉ nums) ∧
         (real_numbers l).Nodup ∧
         r = nums ++ real_numbers l)
  | [], fc, nums, r => by
    simp [is_run_loop, real_tiles, real_numbers, eq_comm]
  | t :: rest, fc, nums, r => by
    by_cases ht : t.color = Color.JOKER
    · have ih := is_run_loop_iff rest fc nums r
      simp only [real_numbers] at ih ⊢
      simp only [is_run_loop, ht, ne_eq, not_true_eq_false, if_false,
        real_tiles_cons_joker t rest ht]
      exact ih
    · have ih := is_run_loop_iff rest t.color (nums ++ [t.number]) r
      simp only [real_numbers] at ih ⊢
      rw [is_run_loop_cons_real t rest fc nums ht, real_tiles_cons_real t rest ht]
      by_cases h1 : fc ≠ Color.JOKER ∧ t.color ≠ fc
      · rw [if_pos h1]
        constructor
        · intro h; simp at h
        · intro h
          exact absurd (h.2.1 h1.1 t (List.mem_cons_self _ _)) h1.2
      · rw [if_neg h1]
        by_cases h2 : t.number ∈ nums
        · rw [if_pos h2]
          constructor
          · intro h; simp at h
          · intro h
            exact absurd h2 (h.2.2.1 t.number (by simp))
        · rw [if_neg h2, ih]
          simp only [List.map_cons, List.mem_cons, List.nodup_cons, List.mem_append,
            List.mem_singleton, List.append_assoc, List.singleton_append, forall_eq_or_imp,
            List.mem_map, not_or, List.not_mem_nil, or_false]
          constructor
          · rintro ⟨ha, hb, hc, hd, he⟩
            have hb' := hb ht
            refine ⟨⟨⟨trivial, fun u hu => (hb' u hu).symm⟩, fun u hu => ⟨hb' u hu, fun v hv => (hb' u hu).trans (hb' v hv).symm⟩⟩, ?_, ⟨h2, ?_⟩, ⟨?_, hd⟩, he⟩
            · intro hfc
              have : t.color = fc := by
                by_contra hne
                exact h1 ⟨hfc, hne⟩
              exact ⟨this, fun u hu => (hb' u hu).trans this⟩
            · rintro x ⟨u, hu, rfl⟩
              exact (hc u.number ⟨u, hu, rfl⟩).1
            · rintro ⟨u, hu, hx⟩
              exact (hc u.number ⟨u, hu, rfl⟩).2 hx
          · rintro ⟨⟨⟨_, ha1⟩, ha2⟩, hb, ⟨_, hc⟩, ⟨hd1, hd2⟩, he⟩
            refine ⟨fun u hu => (ha2 u hu).2, fun _ u hu => (ha1 u hu).symm, ?_, hd2, he⟩
            rintro x ⟨u, hu, rfl⟩
            exact ⟨hc u.number ⟨u, hu, rfl⟩, fun hx => hd1 ⟨u, hu, hx⟩⟩

theorem gap_sum_nonneg : ∀ l : List Int, l.Chain' (fun a b => a < b) → 0 ≤ gap_sum l
  | [], _ => by simp [gap_sum]
  | [_], _ => by simp [gap_sum]
  | a :: b :: rest, h => by
    obtain ⟨hab, hrest⟩ := List.chain'_cons.mp h
    have := gap_sum_nonneg (b :: rest) hrest
    simp only [gap_sum]
    omega

theorem is_run_gaps_iff :
    ∀ (l : List Int) (allowed : Int), l.Chain' (fun a b => a < b) → 0 ≤ allowed →
      (is_run_gaps l allowed = true ↔ gap_sum l ≤ allowed)
  | [], allowed, _, h0 => by simp [is_run_gaps, gap_sum, h0]
  | [_], allowed, _, h0 => by simp [is_run_gaps, gap_sum, h0]
  | a :: b :: rest, allowed, h, h0 => by
    obtain ⟨hab, hrest⟩ := List.chain'_cons.mp h
    have hnn := gap_sum_nonneg (b :: rest) hrest
    simp only [is_run_gaps, gap_sum]
    by_cases hgap : b - a - 1 > 0
    · rw [if_pos hgap]
      by_cases hneg : allowed - (b - a - 1) < 0
      · rw [if_pos hneg]
        constructor
        · intro hc; exact Bool.noConfusion hc
        · intro hc; omega
      · rw [if_neg hneg, is_run_gaps_iff (b :: rest) _ hrest (by omega)]
        omega
    · rw [if_neg hgap, is_run_gaps_iff (b :: rest) _ hrest h0]
      omega

theorem std_sort_chain (numbers : List Int) (h : numbers.Nodup) :
    (std_sort numbers).Chain' (fun a b => a < b) := by
  have hs : (std_sort numbers).Sorted (fun a b => a ≤ b) :=
    List.sorted_insertionSort (fun a b : Int => a ≤ b) numbers
  have hn : (std_sort numbers).Nodup :=
    (List.perm_insertionSort (fun a b : Int => a ≤ b) numbers).nodup_iff.mpr h
  exact List.Pairwise.chain' (List.Sorted.lt_of_le hs hn)

theorem is_run_eq_spec (group : List Tile) : is_run group = true ↔ is_run_spec group := by
  unfold is_run is_run_spec
  rw [count_jokers_eq]
  simp only
  by_cases hsize : MIN_GROUP_SIZE ≤ (group.length : Int)
  · rw [if_neg (fun h => (size_guard_iff group).mp h hsize)]
    cases group with
    | nil => simp [MIN_GROUP_SIZE] at hsize
    | cons tile0 rest =>
      simp only
      cases hloop : is_run_loop (tile0 :: rest) tile0.color [] with
      | none =>
        simp only
        constructor
        · intro hc; exact Bool.noConfusion hc
        · rintro ⟨_, hcol, hnd, _⟩
          have : is_run_loop (tile0 :: rest) tile0.color [] = some (real_numbers (tile0 :: rest)) := by
            rw [is_run_loop_iff]
            refine ⟨hcol, ?_, by simp, hnd, by simp⟩
            intro h0 t ht
            have hmem : tile0 ∈ real_tiles (tile0 :: rest) := by
              rw [real_tiles_cons_real tile0 rest h0]
              exact List.mem_cons_self _ _
            exact hcol t ht tile0 hmem
          rw [this] at hloop
          exact Option.noConfusion hloop
      | some numbers =>
        simp only
        obtain ⟨hcol, _, _, hnd, hnum⟩ := (is_run_loop_iff _ _ _ _).mp hloop
        rw [List.nil_append] at hnum
        subst hnum
        rw [is_run_gaps_iff _ _ (std_sort_chain _ hnd) (by omega)]
        simp only [zero_add]
        constructor
        · intro h; exact ⟨hsize, hcol, hnd, h⟩
        · intro h; exact h.2.2.2
  · rw [if_pos ((size_guard_iff group).mpr hsize)]
    constructor
    · intro hc; exact Bool.noConfusion hc
    · intro h; exact absurd h.1 hsize

theorem is_set_loop_cons_joker (t : Tile) (rest : List Tile) (uc : List Color) (fn : Int)
    (ht : t.color = Color.JOKER) :
    is_set_loop (t :: rest) uc fn = is_set_loop rest uc fn := by
  simp [is_set_loop, ht]

theorem is_set_loop_cons_real (t : Tile) (rest : List Tile) (uc : List Color) (fn : Int)
    (ht : t.color ≠ Color.JOKER) :
    is_set_loop (t :: rest) uc fn =
      if fn ≠ -1 ∧ t.number ≠ fn then none
      else is_set_loop rest (uc.insert t.color) t.number := by
  simp only [is_set_loop, ht, ne_eq, not_false_eq_true, if_true]
  by_cases hfn : fn = -1
  · simp [hfn]
  · by_cases htn : t.number = fn
    · simp [hfn, htn]
    · simp [hfn, htn]

theorem is_set_loop_iff :
    ∀ (l : List Tile) (uc : List Color) (fn : Int) (r : List Color),
      (∀ t ∈ real_tiles l, t.number ≠ -1) →
      (is_set_loop l uc fn = some r ↔
        ((∀ t ∈ real_tiles l, ∀ u ∈ real_tiles l, t.number = u.number) ∧
         (fn ≠ -1 → ∀ t ∈ real_tiles l, t.number = fn) ∧
         r = (real_colors l).foldl (fun u c => u.insert c) uc))
  | [], uc, fn, r, _ => by
    simp [is_set_loop, real_tiles, real_colors, eq_comm]
  | t :: rest, uc, fn, r, hpos => by
    by_cases ht : t.color = Color.JOKER
    · rw [real_tiles_cons_joker t rest ht] at hpos
      have ih := is_set_loop_iff rest uc fn r hpos
      simp only [real_colors] at ih ⊢
      rw [is_set_loop_cons_joker t rest uc fn ht, real_tiles_cons_joker t rest ht]
      exact ih
    · rw [real_tiles_cons_real t rest ht] at hpos
      have htn : t.number ≠ -1 := hpos t (List.mem_cons_self _ _)
      have ih := is_set_loop_iff rest (uc.insert t.color) t.number r
        (fun u hu => hpos u (List.mem_cons_of_mem _ hu))
      simp only [real_colors] at ih ⊢
      rw [is_set_loop_cons_real t rest uc fn ht, real_tiles_cons_real t rest ht]
      by_cases h1 : fn ≠ -1 ∧ t.number ≠ fn
      · rw [if_pos h1]
        constructor
        · intro h; exact Option.noConfusion h
        · intro h
          exact absurd (h.2.1 h1.1 t (List.mem_cons_self _ _)) h1.2
      · rw [if_neg h1, ih]
        simp only [List.map_cons, List.foldl_cons, List.mem_cons, forall_eq_or_imp]
        constructor
        · rintro ⟨_, hb, hc⟩
          have hb' := hb htn
          refine ⟨⟨⟨trivial, fun u hu => (hb' u hu).symm⟩,
            fun u hu => ⟨hb' u hu, fun v hv => (hb' u hu).trans (hb' v hv).symm⟩⟩, ?_, hc⟩
          intro hfn
          have : t.number = fn := by
            by_contra hne
            exact h1 ⟨hfn, hne⟩
          exact ⟨this, fun u hu => (hb' u hu).trans this⟩
        · rintro ⟨⟨⟨_, ha1⟩, ha2⟩, _, hc⟩
          exact ⟨fun u hu => (ha2 u hu).2, fun _ u hu => (ha1 u hu).symm, hc⟩

theorem length_foldl_insert_le :
    ∀ (cs uc : List Color),
      (cs.foldl (fun u c => u.insert c) uc).length ≤ uc.length + cs.length
  | [], uc => by simp
  | c :: cs, uc => by
    have ih := length_foldl_insert_le cs (uc.insert c)
    have hle : (uc.insert c).length ≤ uc.length + 1 := by
      by_cases hc : c ∈ uc
      · rw [List.insert_of_mem hc]; omega
      · rw [List.insert_of_not_mem hc, List.length_cons]
    simp only [List.foldl_cons, List.length_cons]
    omega

theorem length_foldl_insert_iff :
    ∀ (cs uc : List Color),
      (cs.foldl (fun u c => u.insert c) uc).length = uc.length + cs.length ↔
        cs.Nodup ∧ ∀ c ∈ cs, c ∉ uc
  | [], uc => by simp
  | c :: cs, uc => by
    simp only [List.foldl_cons, List.length_cons, List.nodup_cons, List.mem_cons,
      forall_eq_or_imp]
    by_cases hc : c ∈ uc
    · rw [List.insert_of_mem hc]
      have := length_foldl_insert_le cs uc
      constructor
      · intro h; omega
      · intro h; exact absurd hc h.2.1
    · rw [List.insert_of_not_mem hc]
      have ih := length_foldl_insert_iff cs (c :: uc)
      simp only [List.length_cons, List.mem_cons, not_or] at ih
      constructor
      · intro h
        have h' := ih.mp (by omega)
        exact ⟨⟨fun hm => (h'.2 c hm).1 rfl, h'.1⟩, hc, fun x hx => (h'.2 x hx).2⟩
      · rintro ⟨⟨h1, h2⟩, _, h4⟩
        have := ih.mpr ⟨h2, fun x hx => ⟨fun hxc => h1 (hxc ▸ hx), h4 x hx⟩⟩
        omega

theorem real_length_eq (l : List Tile) :
    ((l.length : Int) - (joker_total l : Int)) = ((real_tiles l).length : Int) := by
  have := length_eq_real_add_joker l
  omega

/-- When no non-joker tile carries the number -1, `is_set` is its
specification. -/
theorem is_set_eq_spec (group : List Tile)
    (hpos' : ∀ t ∈ real_tiles group, t.number ≠ -1) :
    is_set group = true ↔ is_set_spec group := by
  unfold is_set is_set_spec
  rw [count_jokers_eq]
  simp only
  by_cases hsize : MIN_GROUP_SIZE ≤ (group.length : Int)
  · rw [if_neg (fun h => (size_guard_iff group).mp h hsize), real_length_eq]
    cases hloop : is_set_loop group [] (-1) with
    | none =>
      simp only
      constructor
      · intro hc; exact Bool.noConfusion hc
      · rintro ⟨_, hnum, _⟩
        have : is_set_loop group [] (-1)
            = some ((real_colors group).foldl (fun u c => u.insert c) []) := by
          rw [is_set_loop_iff group [] (-1) _ hpos']
          exact ⟨hnum, fun h => absurd rfl h, rfl⟩
        rw [this] at hloop
        exact Option.noConfusion hloop
    | some uc =>
      simp only
      obtain ⟨hnum, _, huc⟩ := (is_set_loop_iff group [] (-1) uc hpos').mp hloop
      have hlen := length_foldl_insert_iff (real_colors group) []
      rw [← huc] at hlen
      have hrl : (real_colors group).length = (real_tiles group).length := by
        simp [real_colors]
      simp only [List.length_nil, zero_add, List.not_mem_nil, not_false_eq_true,
        implies_true, and_true, hrl] at hlen
      rw [decide_eq_true_iff, Nat.cast_inj, hlen]
      constructor
      · intro h; exact ⟨hsize, hnum, h⟩
      · intro h; exact h.2.2
  · rw [if_pos ((size_guard_iff group).mpr hsize)]
    constructor
    · intro hc; exact Bool.noConfusion hc
    · intro h; exact absurd h.1 hsize

/-- C5.  `is_set` equals its specification: for every group whose non-joker
tiles all have a number of at least 1, `is_set(group)` is true exactly when
the group has at least `MIN_GROUP_SIZE` tiles, its non-joker tiles share one
number, and their colors are pairwise distinct. -/
theorem is_set_iff_spec (group : List Tile)
    (hpos : ∀ t ∈ group, t.color ≠ Color.JOKER → 1 ≤ t.number) :
    is_set group = true ↔ is_set_spec group := by
  apply is_set_eq_spec
  intro t ht
  have hmem := List.mem_filter.mp ht
  have := hpos t hmem.1 (by simpa using hmem.2)
  omega

theorem is_set_iff_spec_witness :
    (∀ t ∈ [joker, ⟨Color.RED, 7⟩, ⟨Color.BLUE, 7⟩], t.color ≠ Color.JOKER → 1 ≤ t.number) ∧
    (is_set [joker, ⟨Color.RED, 7⟩, ⟨Color.BLUE, 7⟩] = true
      ↔ is_set_spec [joker, ⟨Color.RED, 7⟩, ⟨Color.BLUE, 7⟩]) ∧
    is_set [joker, ⟨Color.RED, 7⟩, ⟨Color.BLUE, 7⟩] = true :=
  ⟨by decide, is_set_iff_spec [joker, ⟨Color.RED, 7⟩, ⟨Color.BLUE, 7⟩] (by decide), by decide⟩

theorem is_set_loop_no_real :
    ∀ (l : List Tile) (uc : List Color) (fn : Int), real_tiles l = [] →
      is_set_loop l uc fn = some uc
  | [], uc, fn, _ => by simp [is_set_loop]
  | t :: rest, uc, fn, h => by
    by_cases ht : t.color = Color.JOKER
    · rw [real_tiles_cons_joker t rest ht] at h
      rw [is_set_loop_cons_joker t rest uc fn ht]
      exact is_set_loop_no_real rest uc fn h
    · rw [real_tiles_cons_real t rest ht] at h
      exact List.noConfusion h

theorem is_set_loop_few_real :
    ∀ l : List Tile, (real_tiles l).length ≤ 1 →
      ∃ r, is_set_loop l [] (-1) = some r ∧ r.length = (real_tiles l).length
  | [], _ => ⟨[], by simp [is_set_loop], by simp [real_tiles]⟩
  | t :: rest, h => by
    by_cases ht : t.color = Color.JOKER
    · rw [real_tiles_cons_joker t rest ht] at h ⊢
      rw [is_set_loop_cons_joker t rest [] (-1) ht]
      exact is_set_loop_few_real rest h
    · rw [real_tiles_cons_real t rest ht] at h ⊢
      have hrest : real_tiles rest = [] := by
        apply List.eq_nil_of_length_eq_zero
        simp only [List.length_cons] at h
        omega
      rw [is_set_loop_cons_real t rest [] (-1) ht, if_neg (fun hc => hc.1 rfl),
        is_set_loop_no_real rest _ _ hrest, hrest]
      exact ⟨_, rfl, by simp⟩

/-- C10, as the code has it.  A group in which at most one tile is not a joker
is accepted by `is_set` and by `is_run` exactly when it has at least
`MIN_GROUP_SIZE` tiles. -/
theorem few_real_tiles_verdict (group : List Tile) (h : (real_tiles group).length ≤ 1) :
    is_set group = decide (MIN_GROUP_SIZE ≤ (group.length : Int)) ∧
    is_run group = decide (MIN_GROUP_SIZE ≤ (group.length : Int)) := by
  constructor
  · unfold is_set
    rw [count_jokers_eq]
    simp only
    by_cases hsize : MIN_GROUP_SIZE ≤ (group.length : Int)
    · rw [if_neg (fun hc => (size_guard_iff group).mp hc hsize), real_length_eq]
      obtain ⟨r, hr, hlen⟩ := is_set_loop_few_real group h
      rw [hr]
      simp [hlen, hsize]
    · rw [if_pos ((size_guard_iff group).mpr hsize)]
      simp [hsize]
  · by_cases hsize : MIN_GROUP_SIZE ≤ (group.length : Int)
    · rw [decide_eq_true hsize, is_run_eq_spec]
      have hnum : (real_numbers group).length ≤ 1 := by
        simpa [real_numbers] using h
      refine ⟨hsize, ?_, ?_, ?_⟩
      · intro t ht u hu
        match hreal : real_tiles group, h, ht, hu with
        | [], _, ht, _ => exact absurd ht (List.not_mem_nil _)
        | [x], _, ht, hu =>
          rw [List.mem_singleton.mp ht, List.mem_singleton.mp hu]
        | _ :: _ :: _, h, _, _ => simp at h
      · match hreal : real_numbers group, hnum with
        | [], _ => exact List.nodup_nil
        | [x], _ => exact List.nodup_singleton x
        | _ :: _ :: _, h => simp at h
      · match hreal : real_numbers group, hnum with
        | [], _ => simp [gap_sum]
        | [x], _ => simp [gap_sum]
        | _ :: _ :: _, h => simp at h
    · rw [decide_eq_false hsize]
      cases hrun : is_run group with
      | false => rfl
      | true => exact absurd ((is_run_eq_spec group).mp hrun).1 hsize

theorem few_real_tiles_verdict_witness :
    (real_tiles [joker, joker, ⟨Color.RED, 7⟩]).length ≤ 1 ∧
    is_set [joker, joker, ⟨Color.RED, 7⟩] = true ∧
    is_run [joker, joker, ⟨Color.RED, 7⟩] = true :=
  ⟨by decide, few_real_tiles_verdict [joker, joker, ⟨Color.RED, 7⟩] (by decide)⟩

/-- C10, as stated, fails: the group of three jokers has no non-joker tile and
`is_set` accepts it. -/
theorem few_real_tiles_not_rejected :
    ¬ (∀ group : List Tile, (real_tiles group).length ≤ 1 →
        is_set group = false ∧ is_run group = false) := by
  intro h
  have := (h [joker, joker, joker] (by decide)).1
  exact absurd this (by decide)

/-! ## Move enumerator: the empty hand and the scenario of `main` -/

/-- With an empty hand and a board the solver arranges into at least one
group, the pass move is the only move returned. -/
theorem getMoveList_nil_hand (board : List Tile)
    (h : valid_rummikub_arrangement board ≠ []) : getMoveList [] board = [[]] := by
  have h1 : (!(valid_rummikub_arrangement board).isEmpty) = true :=
    (isEmpty_eq_false_iff_ne _).mpr h
  have h2 : getMoveList [] board = getMoveList_loop [] board 1 0 [] := rfl
  rw [h2]
  simp only [getMoveList_loop, SubsetsIterator.deref, subset_loop, List.append_nil, h1,
    if_true, List.nil_append]

/-- C7, the code at the failing input.  For the empty hand and the empty board
the solver returns the empty arrangement, which `getMoveList` reads as a
failure: no move is returned, not even the pass move. -/
theorem getMoveList_nil_nil :
    valid_rummikub_arrangement [] = [] ∧ getMoveList [] [] = [] ∧ getMoveList [] [] ≠ [[]] := by
  decide

theorem is_set_loop_some :
    ∀ (l : List Tile) (uc : List Color) (fn : Int) (r : List Color),
      is_set_loop l uc fn = some r → r = (real_colors l).foldl (fun u c => u.insert c) uc
  | [], uc, fn, r, h => by
    simp only [is_set_loop, Option.some.injEq] at h
    simp [real_colors, real_tiles, h]
  | t :: rest, uc, fn, r, h => by
    by_cases ht : t.color = Color.JOKER
    · rw [is_set_loop_cons_joker t rest uc fn ht] at h
      have ih := is_set_loop_some rest uc fn r h
      simp only [real_colors] at ih ⊢
      rw [real_tiles_cons_joker t rest ht]
      exact ih
    · rw [is_set_loop_cons_real t rest uc fn ht] at h
      split at h
      · exact Option.noConfusion h
      · have ih := is_set_loop_some rest _ _ r h
        simp only [real_colors] at ih ⊢
        rw [real_tiles_cons_real t rest ht]
        exact ih

theorem is_set_colors_nodup (group : List Tile) (h : is_set group = true) :
    (real_colors group).Nodup := by
  unfold is_set at h
  rw [count_jokers_eq] at h
  simp only at h
  split at h
  · exact Bool.noConfusion h
  · rw [real_length_eq] at h
    split at h
    · exact Bool.noConfusion h
    · rename_i uc hloop
      have huc := is_set_loop_some group [] (-1) uc hloop
      have hlen := length_foldl_insert_iff (real_colors group) []
      rw [← huc] at hlen
      have hrl : (real_colors group).length = (real_tiles group).length := by
        simp [real_colors]
      simp only [List.length_nil, zero_add, List.not_mem_nil, not_false_eq_true,
        implies_true, and_true, hrl] at hlen
      rw [decide_eq_true_iff, Nat.cast_inj] at h
      exact hlen.mp h

theorem real_colors_playable (group : List Tile) :
    real_colors group ⊆ [Color.RED, Color.BLUE, Color.BLACK, Color.YELLOW] := by
  intro c hc
  simp only [real_colors, List.mem_map] at hc
  obtain ⟨t, ht, rfl⟩ := hc
  have hne : t.color ≠ Color.JOKER := by
    have := (List.mem_filter.mp ht).2
    simpa using this
  cases hcol : t.color with
  | JOKER => exact absurd hcol hne
  | RED => simp
  | BLUE => simp
  | BLACK => simp
  | YELLOW => simp

theorem not_set_and_run (group : List Tile) (h : 2 ≤ (real_tiles group).length) :
    ¬ (is_set group = true ∧ is_run group = true) := by
  rintro ⟨hset, hrun⟩
  have hnd := is_set_colors_nodup group hset
  have hcol := ((is_run_eq_spec group).mp hrun).2.1
  simp only [real_colors] at hnd
  match hreal : real_tiles group, h with
  | [], h => simp at h
  | [_], h => simp at h
  | a :: b :: rest, _ =>
    rw [hreal] at hnd hcol
    have hab : a.color = b.color := hcol a (by simp) b (by simp)
    simp only [List.map_cons, List.nodup_cons, List.mem_cons, not_or] at hnd
    exact hnd.1.1 hab

/-- C11, as the code has it.  A group accepted by `is_set` has at most 4
non-joker tiles; its jokers are not counted against this bound. -/
theorem is_set_real_tiles_le_four (group : List Tile) (h : is_set group = true) :
    (real_tiles group).length ≤ 4 := by
  have hnd := is_set_colors_nodup group h
  have hle := (hnd.subperm (real_colors_playable group)).length_le
  simpa [real_colors] using hle

theorem is_set_real_tiles_le_four_witness :
    is_set four_sevens_and_joker = true ∧ (real_tiles four_sevens_and_joker).length ≤ 4 ∧
    four_sevens_and_joker.length = 5 :=
  ⟨by decide, is_set_real_tiles_le_four four_sevens_and_joker (by decide), by decide⟩

/-- C11, as stated, fails: `is_set` accepts the four 7s with a joker, a group
of 5 tiles. -/
theorem is_set_accepts_five_tiles :
    ¬ (∀ group : List Tile, is_set group = true → group.length ≤ 4) := by
  intro h
  exact absurd (h four_sevens_and_joker (by decide)) (by decide)

/-- C12, as the code has it.  A group of at least 4 tiles, with colors among
the four playable colors or JOKER and numbers from 1 to 13, that has at least
two non-joker tiles is not accepted by both `is_set` and `is_run`. -/
theorem large_meld_one_kind (group : List Tile) (_hsize : 4 ≤ group.length)
    (_hcolor : ∀ t ∈ group, t.color ∈
      [Color.RED, Color.BLUE, Color.BLACK, Color.YELLOW, Color.JOKER])
    (_hnumber : ∀ t ∈ group, 1 ≤ t.number ∧ t.number ≤ 13)
    (hreal : 2 ≤ (real_tiles group).length) :
    ¬ (is_set group = true ∧ is_run group = true) :=
  not_set_and_run group hreal

theorem large_meld_one_kind_witness :
    4 ≤ (four_sevens_and_joker.take 4).length ∧
    is_set (four_sevens_and_joker.take 4) = true ∧
    ¬ (is_set (four_sevens_and_joker.take 4) = true ∧
       is_run (four_sevens_and_joker.take 4) = true) :=
  ⟨by decide, by decide,
   large_meld_one_kind (four_sevens_and_joker.take 4) (by decide) (by decide) (by decide)
    (by decide)⟩

/-- C12, as stated, fails: four jokers, numbered 1, are accepted by `is_set`
and by `is_run`. -/
theorem large_meld_both_kinds :
    ¬ (∀ group : List Tile, 4 ≤ group.length →
        (∀ t ∈ group, t.color ∈
          [Color.RED, Color.BLUE, Color.BLACK, Color.YELLOW, Color.JOKER]) →
        (∀ t ∈ group, 1 ≤ t.number ∧ t.number ≤ 13) →
        ¬ (is_set group = true ∧ is_run group = true)) := by
  intro h
  exact h four_jokers (by decide) (by decide) (by decide) (by decide)

/-- C19.  A group with at least two non-joker tiles is not accepted by both
`is_set` and `is_run`. -/
theorem two_real_tiles_one_kind (group : List Tile) (h : 2 ≤ (real_tiles group).length) :
    ¬ (is_set group = true ∧ is_run group = true) :=
  not_set_and_run group h

theorem two_real_tiles_one_kind_witness :
    2 ≤ (real_tiles [joker, ⟨Color.RED, 5⟩, ⟨Color.RED, 6⟩]).length ∧
    is_run [joker, ⟨Color.RED, 5⟩, ⟨Color.RED, 6⟩] = true ∧
    ¬ (is_set [joker, ⟨Color.RED, 5⟩, ⟨Color.RED, 6⟩] = true ∧
       is_run [joker, ⟨Color.RED, 5⟩, ⟨Color.RED, 6⟩] = true) :=
  ⟨by decide, by decide,
   two_real_tiles_one_kind [joker, ⟨Color.RED, 5⟩, ⟨Color.RED, 6⟩] (by decide)⟩

/-- The verdict of `is_run` is the same for a group and for every
rearrangement of it. -/
theorem is_run_perm (group group1 : List Tile) (h : group.Perm group1) :
    is_run group = is_run group1 := by
  have hreal : (real_tiles group).Perm (real_tiles group1) := h.filter _
  have hnum : (real_numbers group).Perm (real_numbers group1) := hreal.map _
  have hjok : joker_total group = joker_total group1 := (h.filter _).length_eq
  have hsort : List.insertionSort (fun a b : Int => a ≤ b) (real_numbers group)
      = List.insertionSort (fun a b : Int => a ≤ b) (real_numbers group1) := by
    apply List.eq_of_perm_of_sorted (r := fun a b : Int => a ≤ b)
    · exact ((List.perm_insertionSort _ _).trans hnum).trans (List.perm_insertionSort _ _).symm
    · exact List.sorted_insertionSort _ _
    · exact List.sorted_insertionSort _ _
  have hspec : is_run_spec group ↔ is_run_spec group1 := by
    unfold is_run_spec
    rw [h.length_eq, hnum.nodup_iff, hsort, hjok]
    have hmem : ∀ t, t ∈ real_tiles group ↔ t ∈ real_tiles group1 := fun t => hreal.mem_iff
    simp only [hmem]
  have h1 := is_run_eq_spec group
  have h2 := is_run_eq_spec group1
  cases hr : is_run group with
  | true => exact ((h2.mpr (hspec.mp (h1.mp hr)))).symm
  | false =>
    cases hr1 : is_run group1 with
    | false => rfl
    | true => rw [h1.mpr (hspec.mpr (h2.mp hr1))] at hr; exact Bool.noConfusion hr

/-- C13, the code at the failing input.  The tiles red -1, blue 5, black 5
are accepted by `is_set` in this order and rejected with the first two
exchanged: the -1 of the first tile is taken for the unset `first_number`. -/
theorem is_set_depends_on_order :
    List.Perm minus_one_first minus_one_second ∧
    is_set minus_one_first = true ∧ is_set minus_one_second = false := by
  decide

/-- C14.  On the empty input the helper, for any pair range, returns at once
with the arrangement that has no groups, leaving tiles, groups and memo empty;
so does `valid_rummikub_arrangement`. -/
theorem empty_input_empty_arrangement :
    (∀ fuel start_idx end_idx : Nat,
      valid_rummikub_arrangement_helper (fuel + 1) start_idx end_idx (initial_state [])
        = Except.ok { remaining_tiles := [], groups := [], memo := [], result := [] }) ∧
    valid_rummikub_arrangement [] = [] :=
  ⟨fun _ _ _ => rfl, by decide⟩

/-! ## Two runs of the search side by side -/

/-- When no non-joker tile carries the number -1, the verdict of `is_set` is
the same for a group and for every rearrangement of it. -/
theorem is_set_perm (group group1 : List Tile) (h : group.Perm group1)
    (hnum : ∀ t ∈ real_tiles group, t.number ≠ -1) :
    is_set group = is_set group1 := by
  have hreal : (real_tiles group).Perm (real_tiles group1) := h.filter _
  have hmem : ∀ t, t ∈ real_tiles group ↔ t ∈ real_tiles group1 := fun t => hreal.mem_iff
  have hnum1 : ∀ t ∈ real_tiles group1, t.number ≠ -1 := fun t ht => hnum t ((hmem t).mpr ht)
  have hcol : (real_colors group).Perm (real_colors group1) := hreal.map _
  have hspec : is_set_spec group ↔ is_set_spec group1 := by
    unfold is_set_spec
    rw [h.length_eq, hcol.nodup_iff]
    simp only [hmem]
  have h1 := is_set_eq_spec group hnum
  have h2 := is_set_eq_spec group1 hnum1
  cases hr : is_set group with
  | true => exact ((h2.mpr (hspec.mp (h1.mp hr)))).symm
  | false =>
    cases hr1 : is_set group1 with
    | false => rfl
    | true => rw [h1.mpr (hspec.mpr (h2.mp hr1))] at hr; exact Bool.noConfusion hr

end Rummikub
